import Mathlib

/-!
Verification of the baseline/diff engine of the File-Integrity-Monitor
repository (canonical engine: `src/file_monitor.py`, class `FileMonitor`).

Python strings are modelled as `List Char`; a `FingerprintMap`
(`self.file_hashes`, a Python `dict[str, str]`) is an insertion-ordered
association list with unique keys.  The Fernet cipher is modelled as an
abstract pair of encode/decode functions; filesystem reads are modelled by
`Option` (a `none` content means `open`/`read` raises).
-/

namespace FIM

/-- A Python `str`, modelled as its list of characters. -/
abbrev Str := List Char

/-- `self.file_hashes`: a `dict[str, str]` from relative path to hex digest,
modelled as an insertion-ordered association list. -/
abbrev FingerprintMap := List (Str × Str)

/-- The key list of a map (Python `dict` keys, in insertion order). -/
def keys (m : FingerprintMap) : List Str := m.map Prod.fst

/-- Python `d.get(p)`: the value at the first occurrence of key `p`. -/
def lookup : FingerprintMap → Str → Option Str
  | [], _ => none
  | (q, g) :: m, p => if q = p then some g else lookup m p

/-- Python `d[p] = h`: overwrite in place if the key is present, else append. -/
def insertOverwrite : FingerprintMap → Str → Str → FingerprintMap
  | [], p, h => [(p, h)]
  | (q, g) :: m, p, h =>
    if q = p then (q, h) :: m else (q, g) :: insertOverwrite m p h

/-- The binding established by the LAST line for a key (used to describe
what repeated `d[p] = h` assignments produce). -/
def lookupLast (entries : List (Str × Str)) (p : Str) : Option Str :=
  lookup entries.reverse p

/-- Semantic events the engine emits through its logger / EventSink. -/
inductive Event
  | created (p : Str)
  | deleted (p : Str)
  | modified (p : Str)
  | infoBaseline (existed : Bool) (count : Nat)
  | infoSaved
  | errorHashing (p : Str)
  | errorLoading
  | errorSaving
  deriving DecidableEq

/-- The Fernet cipher held in `self.cipher`, abstracted to an encoder and a
decoder; `dec` returns `none` when `decrypt` raises. -/
structure Cipher where
  enc : Str → Str
  dec : Str → Option Str

/-- A cipher decrypts what it encrypted (the property Fernet provides when
the same key is used). -/
def Cipher.RoundTrips (c : Cipher) : Prop := ∀ s, c.dec (c.enc s) = some s

/-- The trivial cipher, used to instantiate theorems on concrete inputs. -/
def idCipher : Cipher := ⟨id, some⟩

/-- Characters removed by Python `str.strip()`: the full Python whitespace
set — ASCII whitespace, the information separators `\x1c`-`\x1f`, `\x85`,
`\xa0`, and the Unicode space separators (U+1680, U+2000-U+200A, U+2028,
U+2029, U+202F, U+205F, U+3000). -/
def isPySpace (ch : Char) : Bool :=
  ch = ' ' || ch = '\t' || ch = '\n' || ch = '\x0b' || ch = '\x0c' || ch = '\x0d' ||
  ch = '\x1c' || ch = '\x1d' || ch = '\x1e' || ch = '\x1f' || ch = '\x85' ||
  ch = '\xa0' || ch = '\u1680' || (0x2000 ≤ ch.toNat && ch.toNat ≤ 0x200a) ||
  ch = '\u2028' || ch = '\u2029' || ch = '\u202f' || ch = '\u205f' || ch = '\u3000'

/-- Python `line.strip()`. -/
def pyStrip (l : Str) : Str :=
  ((l.dropWhile isPySpace).reverse.dropWhile isPySpace).reverse

/-- The line boundary characters of Python `str.splitlines()`:
`\n`, `\r`, `\v`, `\f`, the file/group/record separators `\x1c`-`\x1e`,
`\x85`, and the Unicode line/paragraph separators U+2028 and U+2029
(`\r\n` is handled separately as a single boundary). -/
def isLineBreak (c : Char) : Bool :=
  c = '\n' || c = '\x0d' || c = '\x0b' || c = '\x0c' ||
  c = '\x1c' || c = '\x1d' || c = '\x1e' || c = '\x85' ||
  c = '\u2028' || c = '\u2029'

/-- First phase of `str.splitlines()`: collapse each `\r\n` pair into a
single `\n`, so that it counts as one boundary. -/
def normCRLF : Str → Str
  | [] => []
  | '\x0d' :: '\n' :: rest => '\n' :: normCRLF rest
  | c :: rest => c :: normCRLF rest

/-- Second phase of `str.splitlines()`: split at every line boundary
character, with no trailing empty line for a trailing boundary. -/
def splitBreaks : Str → List Str
  | [] => []
  | c :: rest =>
    if isLineBreak c then [] :: splitBreaks rest
    else
      match splitBreaks rest with
      | [] => [[c]]
      | l :: ls => (c :: l) :: ls

/-- Python `str.splitlines()`: split at every documented line boundary,
`\r\n` counting as one, no trailing empty line for a trailing boundary. -/
def pySplitLines (l : Str) : List Str := splitBreaks (normCRLF l)

/-- Python `line.split("|", 1)` when it yields exactly two parts; `none`
models the `ValueError` raised by unpacking when no `|` is present. -/
def splitFirstBar : Str → Option (Str × Str)
  | [] => none
  | c :: rest =>
    if c = '|' then some ([], rest)
    else (splitFirstBar rest).map (fun pr => (c :: pr.1, pr.2))

/-- Python `"\n".join(lines)`. -/
def joinLines : List Str → Str
  | [] => []
  | [l] => l
  | l :: rest => l ++ '\n' :: joinLines rest

/-- The plaintext record written by `save_baseline`:
`"\n".join(f"{path}|{filehash}" ...)`. -/
def serialize_baseline (m : FingerprintMap) : Str :=
  joinLines (m.map (fun ph => ph.1 ++ '|' :: ph.2))

/-- The bytes `save_baseline` writes: the encrypted serialized record. -/
def save_baseline (c : Cipher) (m : FingerprintMap) : Str :=
  c.enc (serialize_baseline m)

/-- Filesystem operations, for describing what `save_baseline` does to disk. -/
inductive FsOp
  | writeFile (path : Str) (data : Str)
  | rename (src : Str) (dst : Str)
  deriving DecidableEq

/-- The sequence of filesystem operations `save_baseline` performs:
`open(self.baseline_file, "wb")` followed by one `write`. -/
def save_baseline_ops (c : Cipher) (baseline_file : Str) (m : FingerprintMap) :
    List FsOp :=
  [FsOp.writeFile baseline_file (save_baseline c m)]

/-- Modelled from the spec: what it means for a save to be atomic — the
record is written to a temporary file distinct from the target and then
renamed over the target. -/
def specAtomicSave (ops : List FsOp) (target : Str) : Prop :=
  ∃ tmp data, tmp ≠ target ∧
    FsOp.writeFile tmp data ∈ ops ∧ FsOp.rename tmp target ∈ ops

/-- The parsing loop of `load_baseline`: each line is stripped and split on
the first `|`; a line without `|` raises, aborting the loop with the
entries inserted so far kept (`true` marks that the error was raised). -/
def parse_lines : List Str → FingerprintMap → FingerprintMap × Bool
  | [], m => (m, false)
  | line :: rest, m =>
    match splitFirstBar (pyStrip line) with
    | none => (m, true)
    | some pr => parse_lines rest (insertOverwrite m pr.1 pr.2)

/-- `load_baseline`: `file = none` models a missing baseline file;
`c.dec` returning `none` models a failing `cipher.decrypt`.  Any exception
is caught and reported; `file_hashes` is the dict the loop writes into. -/
def load_baseline (c : Cipher) (file : Option Str)
    (file_hashes : FingerprintMap) : FingerprintMap × List Event :=
  match file with
  | none => (file_hashes, [])
  | some encrypted_data =>
    match c.dec encrypted_data with
    | none => (file_hashes, [Event.errorLoading])
    | some decrypted_data =>
      match parse_lines (pySplitLines decrypted_data) file_hashes with
      | (m, true) => (m, [Event.errorLoading])
      | (m, false) => (m, [])

/-- Events emitted by `save_baseline` itself: it swallows any exception and
reports it; `disk_ok = false` models a failing write (disk full, EPERM). -/
def save_baseline_events (disk_ok : Bool) : List Event :=
  if disk_ok then [] else [Event.errorSaving]

/-- The hex alphabet used by `hexdigest()`. -/
def hexChar (n : Nat) : Char := "0123456789abcdef".data.getD n '0'

/-- The 64-character lowercase hex rendering of a 256-bit value, as produced
by `sha256.hexdigest()`. -/
def hexDigest (n : Nat) : Str :=
  (List.range 64).map (fun i => hexChar (n / 16 ^ (63 - i) % 16))

/-- `calculate_hash`: streams the file content into SHA-256 (abstracted as a
function `sha256` onto 256-bit values) and returns the hex digest; any I/O
failure (content `none`) is caught, reported, and `""` is returned. -/
def calculate_hash (sha256 : Str → Nat) (content : Option Str) (p : Str) :
    Str × List Event :=
  match content with
  | none => ([], [Event.errorHashing p])
  | some data => (hexDigest (sha256 data % 2 ^ 256), [])

/-- A file as the engine sees it: its path relative to the monitored
directory, its base name, and its byte content (`none` when opening it
raises, e.g. it vanished or is unreadable). -/
structure FileEntry where
  rel : Str
  name : Str
  content : Option Str
  deriving DecidableEq

/-- Files to ignore during monitoring (module-level constant). -/
def IGNORE_FILES : List Str :=
  [".baseline.txt".data, ".DS_Store".data, "Thumbs.db".data,
   ".key.key".data, "monitor.log".data]

/-- `_get_files`: in single-file mode the target is returned as-is (no
existence check); in directory mode `rglob` results are filtered by base
name against `IGNORE_FILES`. -/
def get_files (single_file : Bool) (path : FileEntry)
    (dirFiles : List FileEntry) : List FileEntry :=
  if single_file then [path]
  else dirFiles.filter (fun f => decide (f.name ∉ IGNORE_FILES))

/-- The dict comprehension shared by `scan` and `check_changes`:
`{str(f.relative_to(dir)): calculate_hash(f) for f in files}`, together
with the error events hashing emits along the way. -/
def snapshot (sha256 : Str → Nat) (files : List FileEntry) :
    FingerprintMap × List Event :=
  (files.map (fun f => (f.rel, (calculate_hash sha256 f.content f.rel).1)),
   files.flatMap (fun f => (calculate_hash sha256 f.content f.rel).2))

/-- The base name of a relative path (last `/`-separated component). -/
def baseName (p : Str) : Str :=
  p.foldl (fun acc c => if c = '/' then [] else acc ++ [c]) []

/-- The engine configuration fixed at construction: single-file flag, the
resolved target, and the (possibly custom) baseline file's base name. -/
structure MonitorConfig where
  single_file : Bool
  target : FileEntry
  baseline_name : Str

/-- The diff-and-replace step of `check_changes`, given the retained
`file_hashes` and the freshly computed map `current`: emits one event per
created, deleted, and modified path, then adopts `current`. -/
def check_changes (file_hashes current : FingerprintMap) :
    List Event × FingerprintMap :=
  (((keys current).filter (fun f => decide (f ∉ keys file_hashes))).map Event.created
    ++ ((keys file_hashes).filter (fun f => decide (f ∉ keys current))).map Event.deleted
    ++ (((keys file_hashes).filter (fun f => decide (f ∈ keys current))).filter
        (fun f => decide (lookup file_hashes f ≠ lookup current f))).map Event.modified,
   current)

/-- `scan`: enumerate, hash, unconditionally replace `self.file_hashes`,
save, log.  Returns the new in-memory map and the emitted events. -/
def scan (sha256 : Str → Nat) (cfg : MonitorConfig) (dirFiles : List FileEntry)
    (baseline_exists : Bool) (disk_ok : Bool) : FingerprintMap × List Event :=
  (let files := get_files cfg.single_file cfg.target dirFiles
   ((snapshot sha256 files).1,
    (snapshot sha256 files).2 ++ save_baseline_events disk_ok
      ++ [Event.infoBaseline baseline_exists files.length, Event.infoSaved]))

/-- `check_changes` end to end: enumerate and hash, diff against the
retained `file_hashes`, replace it, save. -/
def check_changes_full (sha256 : Str → Nat) (cfg : MonitorConfig)
    (dirFiles : List FileEntry) (file_hashes : FingerprintMap) (disk_ok : Bool) :
    FingerprintMap × List Event :=
  (let current := (snapshot sha256 (get_files cfg.single_file cfg.target dirFiles)).1
   ((check_changes file_hashes current).2,
    (snapshot sha256 (get_files cfg.single_file cfg.target dirFiles)).2
      ++ (check_changes file_hashes current).1 ++ save_baseline_events disk_ok))

/-- A string free of every character `str.splitlines()` treats as a line
boundary. -/
def noBreak (l : Str) : Prop := ∀ ch ∈ l, isLineBreak ch = false

instance : DecidablePred noBreak := fun l =>
  List.decidableBAll (fun ch => isLineBreak ch = false) l

/-- A map entry whose serialized line survives `strip`/`splitlines`/
`split("|", 1)` unchanged: the key holds no `|`, neither side holds a line
break, and the joined line is `strip`-fixed. -/
def goodEntry (ph : Str × Str) : Prop :=
  '|' ∉ ph.1 ∧ noBreak ph.1 ∧ noBreak ph.2 ∧
    pyStrip (ph.1 ++ '|' :: ph.2) = ph.1 ++ '|' :: ph.2

instance : DecidablePred goodEntry := fun ph => by
  unfold goodEntry; infer_instance

/-- A well-formed fingerprint map: unique keys, each entry serializable. -/
def goodMap (m : FingerprintMap) : Prop :=
  (keys m).Nodup ∧ ∀ ph ∈ m, goodEntry ph

instance : DecidablePred goodMap := fun m => by
  unfold goodMap; infer_instance

/-! Helper lemmas about the line format. -/

theorem splitFirstBar_of_not_mem {l : Str} (h : '|' ∉ l) : splitFirstBar l = none := by
  induction l with
  | nil => rfl
  | cons c rest ih =>
    have hc : c ≠ '|' := fun hcc => h (hcc ▸ List.mem_cons_self c rest)
    have hr : '|' ∉ rest := fun hm => h (List.mem_cons_of_mem c hm)
    simp [splitFirstBar, hc, ih hr]

theorem splitFirstBar_append {p : Str} (h : '|' ∉ p) (d : Str) :
    splitFirstBar (p ++ '|' :: d) = some (p, d) := by
  induction p with
  | nil => simp [splitFirstBar]
  | cons c rest ih =>
    have hc : c ≠ '|' := fun hcc => h (hcc ▸ List.mem_cons_self c rest)
    have hr : '|' ∉ rest := fun hm => h (List.mem_cons_of_mem c hm)
    simp [splitFirstBar, hc, ih hr]

theorem mem_of_mem_dropWhile {p : Char → Bool} :
    ∀ {l : Str} {ch : Char}, ch ∈ List.dropWhile p l → ch ∈ l := by
  intro l
  induction l with
  | nil => intro ch h; simp [List.dropWhile] at h
  | cons c rest ih =>
    intro ch h
    rw [List.dropWhile] at h
    cases hc : p c with
    | true =>
      rw [hc] at h
      exact List.mem_cons_of_mem c (ih h)
    | false =>
      rw [hc] at h
      exact h

theorem mem_of_mem_pyStrip {l : Str} {ch : Char} (h : ch ∈ pyStrip l) : ch ∈ l := by
  unfold pyStrip at h
  rw [List.mem_reverse] at h
  have h2 := mem_of_mem_dropWhile h
  rw [List.mem_reverse] at h2
  exact mem_of_mem_dropWhile h2

theorem noBreak_no_cr {l : Str} (hb : noBreak l) : ∀ ch ∈ l, ch ≠ '\x0d' := by
  intro ch hm heq
  have h2 := hb ch hm
  rw [heq] at h2
  exact absurd h2 (by decide)

theorem normCRLF_cons {c : Char} (h : c ≠ '\x0d') (rest : Str) :
    normCRLF (c :: rest) = c :: normCRLF rest := by
  simp [normCRLF, h]

theorem normCRLF_append {l : Str} (h : ∀ ch ∈ l, ch ≠ '\x0d') (t : Str) :
    normCRLF (l ++ t) = l ++ normCRLF t := by
  induction l with
  | nil => rfl
  | cons c rest ih =>
    have hc := h c (List.mem_cons_self c rest)
    have hr : ∀ ch ∈ rest, ch ≠ '\x0d' := fun ch hm => h ch (List.mem_cons_of_mem c hm)
    rw [List.cons_append, normCRLF_cons hc, ih hr]
    rfl

theorem normCRLF_id {l : Str} (h : ∀ ch ∈ l, ch ≠ '\x0d') : normCRLF l = l := by
  have h2 := normCRLF_append h []
  simpa [normCRLF] using h2

theorem splitBreaks_noBreak {l : Str} (hb : noBreak l) (hne : l ≠ []) :
    splitBreaks l = [l] := by
  induction l with
  | nil => exact absurd rfl hne
  | cons c rest ih =>
    have hc := hb c (List.mem_cons_self c rest)
    have hbr : noBreak rest := fun ch hm => hb ch (List.mem_cons_of_mem c hm)
    cases rest with
    | nil => simp [splitBreaks, hc]
    | cons c2 rest2 =>
      rw [splitBreaks, if_neg (by simp [hc]), ih hbr (by simp)]

theorem splitBreaks_append {l : Str} (hb : noBreak l) (t : Str) :
    splitBreaks (l ++ '\n' :: t) = l :: splitBreaks t := by
  induction l with
  | nil => simp [splitBreaks, isLineBreak]
  | cons c rest ih =>
    have hc := hb c (List.mem_cons_self c rest)
    have hbr : noBreak rest := fun ch hm => hb ch (List.mem_cons_of_mem c hm)
    rw [List.cons_append, splitBreaks, if_neg (by simp [hc]), ih hbr]

theorem pySplitLines_noBreak {l : Str} (hb : noBreak l) (hne : l ≠ []) :
    pySplitLines l = [l] := by
  unfold pySplitLines
  rw [normCRLF_id (noBreak_no_cr hb), splitBreaks_noBreak hb hne]

theorem pySplitLines_append {l : Str} (hb : noBreak l) (t : Str) :
    pySplitLines (l ++ '\n' :: t) = l :: pySplitLines t := by
  unfold pySplitLines
  have hcr : ∀ ch ∈ l ++ ['\n'], ch ≠ '\x0d' := by
    intro ch hm
    rcases List.mem_append.mp hm with hml | hms
    · exact noBreak_no_cr hb ch hml
    · rw [List.mem_singleton] at hms; subst hms; decide
  have hnorm : normCRLF (l ++ '\n' :: t) = l ++ '\n' :: normCRLF t := by
    have h2 := normCRLF_append hcr t
    simpa using h2
  rw [hnorm, splitBreaks_append hb]

theorem pySplitLines_joinLines {lines : List Str}
    (h : ∀ l ∈ lines, noBreak l ∧ l ≠ []) :
    pySplitLines (joinLines lines) = lines := by
  induction lines with
  | nil => rfl
  | cons l rest ih =>
    cases rest with
    | nil =>
      have hl := h l (List.mem_cons_self l [])
      simpa [joinLines] using pySplitLines_noBreak hl.1 hl.2
    | cons r rest2 =>
      have hl := h l (List.mem_cons_self l _)
      have hrest : ∀ x ∈ r :: rest2, noBreak x ∧ x ≠ [] :=
        fun x hx => h x (List.mem_cons_of_mem l hx)
      have hj : joinLines (l :: r :: rest2) = l ++ '\n' :: joinLines (r :: rest2) := rfl
      rw [hj, pySplitLines_append hl.1, ih hrest]

/-- The serialized line of a good entry is break-free and nonempty. -/
theorem goodEntry_line {ph : Str × Str} (h : goodEntry ph) :
    noBreak (ph.1 ++ '|' :: ph.2) ∧ ph.1 ++ '|' :: ph.2 ≠ [] := by
  obtain ⟨_, h1, h2, _⟩ := h
  refine ⟨?_, by simp⟩
  intro ch hm
  rcases List.mem_append.mp hm with hmp | hmd
  · exact h1 ch hmp
  · rcases List.mem_cons.mp hmd with hbar | hmd2
    · subst hbar; decide
    · exact h2 ch hmd2

/-! Helper lemmas about dict insertion. -/

theorem insertOverwrite_of_not_mem {m : FingerprintMap} {p : Str}
    (h : p ∉ keys m) (d : Str) : insertOverwrite m p d = m ++ [(p, d)] := by
  induction m with
  | nil => rfl
  | cons qg rest ih =>
    obtain ⟨q, g⟩ := qg
    have hq : q ≠ p := fun hqp => h (hqp ▸ List.mem_cons_self q (keys rest))
    have hr : p ∉ keys rest := fun hm => h (List.mem_cons_of_mem q hm)
    simp [insertOverwrite, hq, ih hr]

/-- The fold performed by repeated `d[path] = hash` assignments. -/
def foldIns (acc : FingerprintMap) (entries : List (Str × Str)) : FingerprintMap :=
  entries.foldl (fun a ph => insertOverwrite a ph.1 ph.2) acc

theorem foldIns_nodup : ∀ (entries : List (Str × Str)) (acc : FingerprintMap),
    (keys entries).Nodup → (∀ p ∈ keys entries, p ∉ keys acc) →
    foldIns acc entries = acc ++ entries := by
  intro entries
  induction entries with
  | nil => intro acc _ _; simp [foldIns]
  | cons ph rest ih =>
    intro acc hnd hdisj
    obtain ⟨p, d⟩ := ph
    have hp : p ∉ keys acc := hdisj p (List.mem_cons_self p (keys rest))
    have hnd2 : (keys rest).Nodup := (List.nodup_cons.mp hnd).2
    have hpr : p ∉ keys rest := (List.nodup_cons.mp hnd).1
    have hdisj2 : ∀ q ∈ keys rest, q ∉ keys (acc ++ [(p, d)]) := by
      intro q hq
      simp only [keys, List.map_append] at *
      intro hmem
      rcases List.mem_append.mp hmem with hacc | hsing
      · exact hdisj q (List.mem_cons_of_mem p hq) hacc
      · simp at hsing
        exact hpr (hsing ▸ hq)
    have step : foldIns acc ((p, d) :: rest) = foldIns (acc ++ [(p, d)]) rest := by
      simp [foldIns, insertOverwrite_of_not_mem hp]
    rw [step, ih (acc ++ [(p, d)]) hnd2 hdisj2, List.append_assoc, List.singleton_append]

theorem lookup_append (l₁ l₂ : FingerprintMap) (p : Str) :
    lookup (l₁ ++ l₂) p = (lookup l₁ p).elim (lookup l₂ p) some := by
  induction l₁ with
  | nil => simp [lookup]
  | cons qg rest ih =>
    obtain ⟨q, g⟩ := qg
    by_cases hq : q = p
    · simp [lookup, hq]
    · simp [lookup, hq, ih]

theorem lookup_insertOverwrite (m : FingerprintMap) (p d q : Str) :
    lookup (insertOverwrite m p d) q = if p = q then some d else lookup m q := by
  induction m with
  | nil =>
    by_cases hpq : p = q <;> simp [insertOverwrite, lookup, hpq]
  | cons ag rest ih =>
    obtain ⟨a, g⟩ := ag
    by_cases hap : a = p
    · subst hap
      by_cases haq : a = q
      · simp [insertOverwrite, lookup, haq]
      · simp [insertOverwrite, lookup, haq]
    · by_cases haq : a = q
      · subst haq
        have hpq : p ≠ a := fun h => hap h.symm
        simp [insertOverwrite, lookup, hap, hpq]
      · simp [insertOverwrite, lookup, hap, haq, ih]

theorem keys_insertOverwrite_mem {m : FingerprintMap} {p : Str}
    (h : p ∈ keys m) (d : Str) : keys (insertOverwrite m p d) = keys m := by
  induction m with
  | nil => simp [keys] at h
  | cons ag rest ih =>
    obtain ⟨a, g⟩ := ag
    by_cases hap : a = p
    · simp [insertOverwrite, hap, keys]
    · have hr : p ∈ keys rest := by
        rcases List.mem_cons.mp h with hpa | hr
        · exact absurd hpa.symm hap
        · exact hr
      have hstep : insertOverwrite ((a, g) :: rest) p d = (a, g) :: insertOverwrite rest p d := by
        simp [insertOverwrite, hap]
      rw [hstep]
      simp only [keys, List.map_cons]
      have h3 := ih hr
      simp only [keys] at h3
      rw [h3]

theorem nodup_keys_insertOverwrite {m : FingerprintMap} (h : (keys m).Nodup)
    (p d : Str) : (keys (insertOverwrite m p d)).Nodup := by
  by_cases hp : p ∈ keys m
  · rw [keys_insertOverwrite_mem hp]; exact h
  · rw [insertOverwrite_of_not_mem hp]
    have hk : keys (m ++ [(p, d)]) = keys m ++ [p] := by simp [keys]
    rw [hk, List.nodup_append]
    refine ⟨h, List.nodup_singleton p, ?_⟩
    intro x hx hxs
    rw [List.mem_singleton] at hxs
    exact hp (hxs ▸ hx)

theorem lookup_foldIns : ∀ (entries : List (Str × Str)) (acc : FingerprintMap) (p : Str),
    lookup (foldIns acc entries) p = (lookupLast entries p).elim (lookup acc p) some := by
  intro entries
  induction entries with
  | nil => intro acc p; simp [foldIns, lookupLast, lookup]
  | cons qg rest ih =>
    intro acc p
    obtain ⟨q, g⟩ := qg
    have step : foldIns acc ((q, g) :: rest) = foldIns (insertOverwrite acc q g) rest := rfl
    rw [step, ih]
    have hlast : lookupLast ((q, g) :: rest) p
        = (lookupLast rest p).elim (if q = p then some g else none) some := by
      unfold lookupLast
      rw [List.reverse_cons, lookup_append]
      simp [lookup]
    rw [hlast, lookup_insertOverwrite]
    cases lookupLast rest p with
    | none => by_cases hqp : q = p <;> simp [hqp]
    | some h => simp

theorem nodup_keys_foldIns : ∀ (entries : List (Str × Str)) (acc : FingerprintMap),
    (keys acc).Nodup → (keys (foldIns acc entries)).Nodup := by
  intro entries
  induction entries with
  | nil => intro acc h; exact h
  | cons qg rest ih =>
    intro acc h
    exact ih (insertOverwrite acc qg.1 qg.2) (nodup_keys_insertOverwrite h qg.1 qg.2)

/-! Helper lemmas about the parse loop. -/

theorem parse_lines_append {m : List (Str × Str)} (hm : ∀ ph ∈ m, goodEntry ph)
    (extra : List Str) : ∀ acc : FingerprintMap,
    parse_lines (m.map (fun ph => ph.1 ++ '|' :: ph.2) ++ extra) acc
      = parse_lines extra (foldIns acc m) := by
  induction m with
  | nil => intro acc; rfl
  | cons ph rest ih =>
    intro acc
    have hg := hm ph (List.mem_cons_self ph rest)
    have hrest : ∀ x ∈ rest, goodEntry x := fun x hx => hm x (List.mem_cons_of_mem ph hx)
    obtain ⟨hbar, _, _, hstrip⟩ := hg
    rw [List.map_cons, List.cons_append, parse_lines, hstrip, splitFirstBar_append hbar]
    exact ih hrest (insertOverwrite acc ph.1 ph.2)

theorem parse_lines_good {m : List (Str × Str)} (hm : ∀ ph ∈ m, goodEntry ph)
    (acc : FingerprintMap) :
    parse_lines (m.map (fun ph => ph.1 ++ '|' :: ph.2)) acc = (foldIns acc m, false) := by
  have h := parse_lines_append hm [] acc
  rw [List.append_nil] at h
  rw [h]
  rfl

/-- A cipher whose ciphertext is the plaintext tagged with a marker byte;
it round-trips, and untagged bytes fail to decrypt. -/
def tagCipher : Cipher :=
  ⟨fun s => 'E' :: s, fun s => match s with | 'E' :: r => some r | _ => none⟩

/-! The claims. -/

/-- Claim C1: `check_changes` classifies paths exactly as Created =
`keys(M) - keys(baseline)`, Deleted = `keys(baseline) - keys(M)`, and
Modified = keys in both whose digests differ; the three sets are pairwise
disjoint and one event is emitted per path in each set. -/
theorem check_changes_classifies (baseline current : FingerprintMap)
    (hb : (keys baseline).Nodup) (hc : (keys current).Nodup) :
    (∀ p, Event.created p ∈ (check_changes baseline current).1
        ↔ p ∈ keys current ∧ p ∉ keys baseline) ∧
    (∀ p, Event.deleted p ∈ (check_changes baseline current).1
        ↔ p ∈ keys baseline ∧ p ∉ keys current) ∧
    (∀ p, Event.modified p ∈ (check_changes baseline current).1
        ↔ p ∈ keys baseline ∧ p ∈ keys current
            ∧ lookup baseline p ≠ lookup current p) ∧
    (∀ p, ¬(Event.created p ∈ (check_changes baseline current).1
        ∧ Event.deleted p ∈ (check_changes baseline current).1)) ∧
    (∀ p, ¬(Event.created p ∈ (check_changes baseline current).1
        ∧ Event.modified p ∈ (check_changes baseline current).1)) ∧
    (∀ p, ¬(Event.deleted p ∈ (check_changes baseline current).1
        ∧ Event.modified p ∈ (check_changes baseline current).1)) ∧
    (check_changes baseline current).1.Nodup := by
  have hcr : ∀ p, Event.created p ∈ (check_changes baseline current).1
      ↔ p ∈ keys current ∧ p ∉ keys baseline := by
    intro p; simp [check_changes]
  have hdl : ∀ p, Event.deleted p ∈ (check_changes baseline current).1
      ↔ p ∈ keys baseline ∧ p ∉ keys current := by
    intro p; simp [check_changes]
  have hmd : ∀ p, Event.modified p ∈ (check_changes baseline current).1
      ↔ p ∈ keys baseline ∧ p ∈ keys current
          ∧ lookup baseline p ≠ lookup current p := by
    intro p
    simp [check_changes, and_assoc]
    constructor
    · rintro ⟨a, ha1, ha2, ha3, rfl⟩
      exact ⟨ha1, ha3, ha2⟩
    · rintro ⟨h1, h2, h3⟩
      exact ⟨p, h1, h3, h2, rfl⟩
  have hnodup : (check_changes baseline current).1.Nodup := by
    simp only [check_changes]
    rw [List.append_assoc, List.nodup_append]
    refine ⟨List.Nodup.map (fun a b hab => Event.created.inj hab) (hc.filter _), ?_, ?_⟩
    · rw [List.nodup_append]
      refine ⟨List.Nodup.map (fun a b hab => Event.deleted.inj hab) (hb.filter _),
        List.Nodup.map (fun a b hab => Event.modified.inj hab) ((hb.filter _).filter _), ?_⟩
      intro a ha hmem
      rcases List.mem_map.mp ha with ⟨x, _, rfl⟩
      rcases List.mem_map.mp hmem with ⟨y, _, hy⟩
      exact Event.noConfusion hy
    · intro a ha hmem
      rcases List.mem_map.mp ha with ⟨x, _, rfl⟩
      rcases List.mem_append.mp hmem with h1 | h2
      · rcases List.mem_map.mp h1 with ⟨y, _, hy⟩
        exact Event.noConfusion hy
      · rcases List.mem_map.mp h2 with ⟨y, _, hy⟩
        exact Event.noConfusion hy
  refine ⟨hcr, hdl, hmd, ?_, ?_, ?_, hnodup⟩
  · exact fun p h => ((hcr p).mp h.1).2 ((hdl p).mp h.2).1
  · exact fun p h => ((hcr p).mp h.1).2 ((hmd p).mp h.2).1
  · exact fun p h => ((hdl p).mp h.1).2 ((hmd p).mp h.2).2.1

/-- Witness for C1 at the spec's concrete scenario: baseline `a.txt`,
filesystem now has `a.txt` unchanged and `b.txt` new. -/
theorem check_changes_classifies_witness :
    Event.created "b.txt".data ∈ (check_changes [("a.txt".data, "h1".data)]
        [("a.txt".data, "h1".data), ("b.txt".data, "h2".data)]).1
      ↔ "b.txt".data ∈ keys [("a.txt".data, "h1".data), ("b.txt".data, "h2".data)]
          ∧ "b.txt".data ∉ keys [("a.txt".data, "h1".data)] :=
  (check_changes_classifies [("a.txt".data, "h1".data)]
    [("a.txt".data, "h1".data), ("b.txt".data, "h2".data)]
    (by decide) (by decide)).1 "b.txt".data

/-- Claim C2: calling `check_changes` twice with the same freshly computed
map yields an empty diff on the second call, because the first call
unconditionally replaces the in-memory baseline with the computed map. -/
theorem check_changes_idempotent (file_hashes M : FingerprintMap) :
    (check_changes file_hashes M).2 = M ∧
    (check_changes (check_changes file_hashes M).2 M).1 = [] := by
  refine ⟨rfl, ?_⟩
  simp [check_changes]

/-- Claim C3 as stated fails: a key containing the separator `|` does not
round-trip — saving `a|b : h` and loading yields the entry `a : b|h`. -/
theorem load_save_roundtrip_counterexample :
    (load_baseline idCipher (some (save_baseline idCipher [("a|b".data, "h".data)])) []).1
      ≠ [("a|b".data, "h".data)] := by decide

/-- Claim C3 (amended): `load(save(M)) = M`, with no error event, for every
well-formed map — unique keys, no `|` in any key, no line breaks in keys
or digests, serialized lines fixed by `strip` — including the empty map. -/
theorem load_save_roundtrip (c : Cipher) (hc : c.RoundTrips)
    (m : FingerprintMap) (hm : goodMap m) :
    load_baseline c (some (save_baseline c m)) [] = (m, []) := by
  obtain ⟨hnd, hent⟩ := hm
  have h1 : pySplitLines (serialize_baseline m)
      = m.map (fun ph => ph.1 ++ '|' :: ph.2) := by
    unfold serialize_baseline
    apply pySplitLines_joinLines
    intro l hl
    rcases List.mem_map.mp hl with ⟨ph, hph, rfl⟩
    exact goodEntry_line (hent ph hph)
  have h2 : parse_lines (pySplitLines (serialize_baseline m)) [] = (m, false) := by
    rw [h1, parse_lines_good hent []]
    rw [foldIns_nodup m [] hnd (by intro p _; simp [keys])]
    simp
  show load_baseline c (some (c.enc (serialize_baseline m))) [] = (m, [])
  simp only [load_baseline, hc (serialize_baseline m), h2]

/-- Witness for C3 (amended) on a one-entry map with the identity cipher. -/
theorem load_save_roundtrip_witness :
    load_baseline idCipher (some (save_baseline idCipher [("a.txt".data, "h1".data)])) []
      = ([("a.txt".data, "h1".data)], []) :=
  load_save_roundtrip idCipher (fun _ => rfl) [("a.txt".data, "h1".data)] (by decide)

/-- Claim C4 as stated fails: `save_baseline` performs no write to a
temporary file followed by a rename over the target — its operation trace
holds no rename at all. -/
theorem save_baseline_not_atomic :
    ¬ specAtomicSave
        (save_baseline_ops idCipher ".baseline.txt".data [("a.txt".data, "h1".data)])
        ".baseline.txt".data := by
  rintro ⟨tmp, data, hne, hw, hr⟩
  simp [save_baseline_ops] at hr

/-- Claim C4 (amended): `save_baseline` writes the encrypted record in a
single direct write to the target path, with no temporary file and no
rename, so a crash mid-write can leave a truncated baseline. -/
theorem save_baseline_direct_write (c : Cipher) (baseline_file : Str)
    (m : FingerprintMap) :
    save_baseline_ops c baseline_file m
      = [FsOp.writeFile baseline_file (save_baseline c m)] := rfl

/-- Claim C5 as stated fails: a decrypted record with a malformed line
after a good line yields the partially parsed entries, not an empty map. -/
theorem load_baseline_partial_counterexample :
    (load_baseline idCipher (some "a|h\nbad".data) []).1 = [("a".data, "h".data)] ∧
    (load_baseline idCipher (some "a|h\nbad".data) []).1 ≠ [] ∧
    (load_baseline idCipher (some "a|h\nbad".data) []).2 = [Event.errorLoading] := by
  refine ⟨by decide, by decide, by decide⟩

/-- Claim C5 (amended): a missing baseline file yields the empty map with
no error; an undecryptable file yields the empty map with an error event;
a malformed line (no separator) aborts parsing with an error event but the
entries parsed from the lines before it are kept, not discarded. -/
theorem load_baseline_degradation (c : Cipher) (hc : c.RoundTrips)
    (bytes : Str) (hdec : c.dec bytes = none)
    (entries : List (Str × Str)) (hent : ∀ ph ∈ entries, goodEntry ph)
    (hnd : (keys entries).Nodup)
    (bad : Str) (hbar : '|' ∉ bad) (hbb : noBreak bad) (hbne : bad ≠ []) :
    load_baseline c none [] = ([], []) ∧
    load_baseline c (some bytes) [] = ([], [Event.errorLoading]) ∧
    load_baseline c (some (c.enc (joinLines
        (entries.map (fun ph => ph.1 ++ '|' :: ph.2) ++ [bad])))) []
      = (entries, [Event.errorLoading]) := by
  refine ⟨rfl, ?_, ?_⟩
  · simp only [load_baseline, hdec]
  · have hlines : ∀ l ∈ entries.map (fun ph => ph.1 ++ '|' :: ph.2) ++ [bad],
        noBreak l ∧ l ≠ [] := by
      intro l hl
      rcases List.mem_append.mp hl with hm | hb2
      · rcases List.mem_map.mp hm with ⟨ph, hph, rfl⟩
        exact goodEntry_line (hent ph hph)
      · rw [List.mem_singleton] at hb2; subst hb2; exact ⟨hbb, hbne⟩
    have hbad : splitFirstBar (pyStrip bad) = none :=
      splitFirstBar_of_not_mem (fun hmem => hbar (mem_of_mem_pyStrip hmem))
    have hparse : parse_lines (entries.map (fun ph => ph.1 ++ '|' :: ph.2) ++ [bad]) []
        = (entries, true) := by
      rw [parse_lines_append hent [bad] []]
      rw [foldIns_nodup entries [] hnd (by intro p _; simp [keys])]
      simp only [List.nil_append]
      simp [parse_lines, hbad]
    simp only [load_baseline, hc _, pySplitLines_joinLines hlines, hparse]

/-- Witness for C5 (amended) with a tagging cipher, garbage bytes, one good
entry and one malformed line. -/
theorem load_baseline_degradation_witness :
    load_baseline tagCipher none [] = ([], []) ∧
    load_baseline tagCipher (some "x".data) [] = ([], [Event.errorLoading]) ∧
    load_baseline tagCipher (some (tagCipher.enc (joinLines
        ([("a".data, "h".data)].map (fun ph => ph.1 ++ '|' :: ph.2) ++ ["bad".data])))) []
      = ([("a".data, "h".data)], [Event.errorLoading]) :=
  load_baseline_degradation tagCipher (fun _ => rfl) "x".data (by decide)
    [("a".data, "h".data)] (by decide) (by decide) "bad".data (by decide) (by decide)
    (by decide)

/-- Claim C6 as stated fails: `_get_files` does not re-check existence of a
single-file target — a vanished target is still enumerated, and the
resulting map holds that path with the sentinel empty digest. -/
theorem get_files_single_counterexample :
    get_files true ⟨"f.txt".data, "f.txt".data, none⟩ [] ≠ [] ∧
    ("f.txt".data, ([] : Str))
      ∈ (snapshot (fun _ => 0) (get_files true ⟨"f.txt".data, "f.txt".data, none⟩ [])).1 := by
  refine ⟨by decide, by decide⟩

/-- Claim C6 (amended): in single-file mode `_get_files` returns exactly the
target with no existence check; when the target's content is unreadable
(vanished), the snapshot contains that one entry with the sentinel empty
digest and a hashing error event, rather than being empty. -/
theorem get_files_single (tgt : FileEntry) (dirFiles : List FileEntry)
    (sha256 : Str → Nat) :
    get_files true tgt dirFiles = [tgt] ∧
    (snapshot sha256 (get_files true ⟨tgt.rel, tgt.name, none⟩ dirFiles)).1
      = [(tgt.rel, [])] ∧
    Event.errorHashing tgt.rel
      ∈ (snapshot sha256 (get_files true ⟨tgt.rel, tgt.name, none⟩ dirFiles)).2 := by
  refine ⟨rfl, rfl, ?_⟩
  simp [snapshot, get_files, calculate_hash]

/-- Claim C7 as stated fails: the ignore list holds fixed base names only,
so an engine constructed with a custom baseline file name inside the
monitored subtree produces a map containing that baseline file as a key. -/
theorem ignore_custom_baseline_counterexample :
    (MonitorConfig.mk false ⟨[], [], none⟩ "mybase.txt".data).baseline_name
        = "mybase.txt".data ∧
    "mybase.txt".data ∈ keys (scan (fun _ => 0)
        (MonitorConfig.mk false ⟨[], [], none⟩ "mybase.txt".data)
        [⟨"mybase.txt".data, "mybase.txt".data, some "c".data⟩] true true).1 := by
  refine ⟨rfl, by decide⟩

/-- Claim C7 (amended): in directory mode, every key of the map produced by
`scan` or `check_changes` has a base name outside the fixed `IGNORE_FILES`
list — in particular it is never the default baseline file
`.baseline.txt`, the key file `.key.key`, or the log file `monitor.log`,
even inside a subdirectory; a custom-named baseline file is not excluded. -/
theorem snapshot_excludes_ignored (sha256 : Str → Nat) (cfg : MonitorConfig)
    (hs : cfg.single_file = false) (dirFiles : List FileEntry)
    (hwf : ∀ f ∈ dirFiles, f.name = baseName f.rel)
    (baseline_exists disk_ok : Bool) (file_hashes : FingerprintMap) :
    (∀ p ∈ keys (scan sha256 cfg dirFiles baseline_exists disk_ok).1,
        baseName p ∉ IGNORE_FILES ∧ p ∉ IGNORE_FILES) ∧
    (∀ p ∈ keys (check_changes_full sha256 cfg dirFiles file_hashes disk_ok).1,
        baseName p ∉ IGNORE_FILES ∧ p ∉ IGNORE_FILES) := by
  have main : ∀ p ∈ keys (snapshot sha256
      (get_files cfg.single_file cfg.target dirFiles)).1,
      baseName p ∉ IGNORE_FILES ∧ p ∉ IGNORE_FILES := by
    intro p hp
    rw [hs] at hp
    simp only [get_files, if_neg Bool.false_ne_true, snapshot, keys,
      List.map_map] at hp
    rcases List.mem_map.mp hp with ⟨f, hf, hfe⟩
    simp only [Function.comp_apply] at hfe
    subst hfe
    rcases List.mem_filter.mp hf with ⟨hfd, hpred⟩
    rw [decide_eq_true_eq] at hpred
    have hb := hwf f hfd
    refine ⟨by rw [← hb]; exact hpred, ?_⟩
    intro hmem
    have hfix : ∀ n ∈ IGNORE_FILES, baseName n = n := by decide
    apply hpred
    rw [hb, hfix _ hmem]
    exact hmem
  exact ⟨fun p hp => main p hp, fun p hp => main p hp⟩

/-- Witness for C7 (amended) on a directory holding a plain file and a key
file inside a subdirectory. -/
theorem snapshot_excludes_ignored_witness :
    baseName "a.txt".data ∉ IGNORE_FILES ∧ "a.txt".data ∉ IGNORE_FILES :=
  (snapshot_excludes_ignored (fun _ => 0)
      (MonitorConfig.mk false ⟨[], [], none⟩ ".baseline.txt".data) rfl
      [⟨"a.txt".data, "a.txt".data, some "x".data⟩,
       ⟨"sub/.key.key".data, ".key.key".data, some "k".data⟩]
      (by decide) true true []).1 "a.txt".data (by decide)

/-- Claim C8: `calculate_hash` never raises past the engine boundary — an
unreadable file yields an error event and the empty-string sentinel, and
every real digest is a nonempty 64-character hex string, so the sentinel
is distinguishable from every real digest. -/
theorem calculate_hash_sentinel (sha256 : Str → Nat) (p : Str) (data : Str) :
    calculate_hash sha256 none p = ([], [Event.errorHashing p]) ∧
    (calculate_hash sha256 (some data) p).2 = [] ∧
    (calculate_hash sha256 (some data) p).1.length = 64 ∧
    (calculate_hash sha256 (some data) p).1 ≠ [] ∧
    ∀ ch ∈ (calculate_hash sha256 (some data) p).1,
      ch ∈ "0123456789abcdef".data := by
  refine ⟨rfl, rfl, ?_, ?_, ?_⟩
  · simp [calculate_hash, hexDigest]
  · intro h
    have hlen : (calculate_hash sha256 (some data) p).1.length = 64 := by
      simp [calculate_hash, hexDigest]
    rw [h] at hlen
    simp at hlen
  · intro ch hch
    simp only [calculate_hash, hexDigest, List.mem_map, List.mem_range] at hch
    rcases hch with ⟨i, hi, rfl⟩
    have h16 : sha256 data % 2 ^ 256 / 16 ^ (63 - i) % 16 < 16 :=
      Nat.mod_lt _ (by norm_num)
    have hhex : ∀ n < 16, hexChar n ∈ "0123456789abcdef".data := by decide
    exact hhex _ h16

/-- Witness for C8 at a concrete hash function and file. -/
theorem calculate_hash_sentinel_witness :
    ('0' : Char) ∈ "0123456789abcdef".data ∧
    calculate_hash (fun _ => 0) none "p".data
      = ([], [Event.errorHashing "p".data]) :=
  ⟨(calculate_hash_sentinel (fun _ => 0) "p".data "x".data).2.2.2.2 '0' (by decide),
   (calculate_hash_sentinel (fun _ => 0) "p".data "x".data).1⟩

/-- Claim C9: a failing save never alters the in-memory map — after `scan`
or `check_changes` it equals the freshly computed snapshot whether or not
the save succeeded, and the failure is reported as an error event. -/
theorem save_failure_frame (sha256 : Str → Nat) (cfg : MonitorConfig)
    (dirFiles : List FileEntry) (file_hashes : FingerprintMap)
    (baseline_exists : Bool) :
    (scan sha256 cfg dirFiles baseline_exists true).1
      = (scan sha256 cfg dirFiles baseline_exists false).1 ∧
    (scan sha256 cfg dirFiles baseline_exists false).1
      = (snapshot sha256 (get_files cfg.single_file cfg.target dirFiles)).1 ∧
    Event.errorSaving ∈ (scan sha256 cfg dirFiles baseline_exists false).2 ∧
    (check_changes_full sha256 cfg dirFiles file_hashes true).1
      = (check_changes_full sha256 cfg dirFiles file_hashes false).1 ∧
    (check_changes_full sha256 cfg dirFiles file_hashes false).1
      = (snapshot sha256 (get_files cfg.single_file cfg.target dirFiles)).1 ∧
    Event.errorSaving ∈ (check_changes_full sha256 cfg dirFiles file_hashes false).2 := by
  refine ⟨rfl, rfl, ?_, rfl, rfl, ?_⟩ <;>
    simp [scan, check_changes_full, save_baseline_events]

/-- Claim C10: when the decrypted record holds several lines with the same
identifier, the loaded map's digest for it is the one from the last such
line, and the map's keys are still unique. -/
theorem load_duplicate_lines (c : Cipher) (hc : c.RoundTrips)
    (entries : List (Str × Str)) (hent : ∀ ph ∈ entries, goodEntry ph) :
    (∀ p, lookup (load_baseline c (some (c.enc (serialize_baseline entries))) []).1 p
        = lookupLast entries p) ∧
    (keys (load_baseline c (some (c.enc (serialize_baseline entries))) []).1).Nodup := by
  have h1 : pySplitLines (serialize_baseline entries)
      = entries.map (fun ph => ph.1 ++ '|' :: ph.2) := by
    unfold serialize_baseline
    apply pySplitLines_joinLines
    intro l hl
    rcases List.mem_map.mp hl with ⟨ph, hph, rfl⟩
    exact goodEntry_line (hent ph hph)
  have h2 : parse_lines (pySplitLines (serialize_baseline entries)) []
      = (foldIns [] entries, false) := by
    rw [h1, parse_lines_good hent []]
  have h3 : (load_baseline c (some (c.enc (serialize_baseline entries))) []).1
      = foldIns [] entries := by
    simp only [load_baseline, hc (serialize_baseline entries), h2]
  rw [h3]
  constructor
  · intro p
    rw [lookup_foldIns entries [] p]
    cases hl : lookupLast entries p <;> simp [lookup]
  · exact nodup_keys_foldIns entries [] (by simp [keys])

/-- Witness for C10: two lines for `a`, the later digest wins. -/
theorem load_duplicate_lines_witness :
    lookup (load_baseline idCipher (some (idCipher.enc (serialize_baseline
        [("a".data, "h1".data), ("b".data, "g".data), ("a".data, "h2".data)]))) []).1
        "a".data
      = some "h2".data ∧
    (keys (load_baseline idCipher (some (idCipher.enc (serialize_baseline
        [("a".data, "h1".data), ("b".data, "g".data), ("a".data, "h2".data)]))) []).1).Nodup :=
  ⟨((load_duplicate_lines idCipher (fun _ => rfl)
      [("a".data, "h1".data), ("b".data, "g".data), ("a".data, "h2".data)]
      (by decide)).1 "a".data).trans (by decide),
   (load_duplicate_lines idCipher (fun _ => rfl)
      [("a".data, "h1".data), ("b".data, "g".data), ("a".data, "h2".data)]
      (by decide)).2⟩

end FIM
